import Mathlib

/-!
Shallow embedding of the token-analyzer core of `src/app/handler.py`
(class `AsyncTokenAnalyzer`) and its caller `src/server.py`.

Modelling conventions:
* The external ledger service (web3 RPC) is an opaque collaborator; its
  responses are passed in as explicit oracle functions / arguments.
* Async calls become ordinary function application; `asyncio.gather`
  without `return_exceptions` becomes an `Except`-valued fold that
  propagates the first error.
* Python `int` is unbounded, so balances are `Int` and amounts `Nat`.
* Python floats produced by `bal / 10 ** decimals` are idealized as `ℚ`.
* Python dicts preserve insertion order, so a `defaultdict(int)` ledger is
  an association list in first-insertion order.
* `while` loops that may diverge are given explicit fuel; a run that
  exhausts its fuel reports `completed = false`.
* `datetime.fromtimestamp` converts an epoch value to the host's local
  civil time; the host's UTC offset (in seconds) is an explicit parameter.
-/

/-! ### Data model -/

abbrev Account := String

/-- The distinguished zero address literal from `get_top_holders`. -/
def zeroAddress : Account := "0x0000000000000000000000000000000000000000"

/-- A decoded Transfer event as produced by `get_event_data`: the
`args` dict may be missing `from` / `to` (hence `Option`), and
`args.get('value', 0)` defaults to `0`. -/
structure TransferEvent where
  fromAddr : Option Account
  toAddr : Option Account
  value : Nat
  blockNumber : Nat
deriving DecidableEq

/-- The `balances` defaultdict of `get_top_holders`, as an association
list in insertion order (Python dicts preserve insertion order). -/
abbrev Ledger := List (Account × Int)

/-! ### Levels A and B: get_balance / get_balance_batch -/

/-- `_to_decimal`: convert a raw balance to display units. -/
def toDecimal (decimals : Nat) (value : Int) : ℚ :=
  (value : ℚ) / 10 ^ decimals

/-- `get_balance`: query `balanceOf` (external call, modelled by the
oracle `balanceOf`) and convert with `_to_decimal`. -/
def get_balance (balanceOf : Account → Except Unit Int) (decimals : Nat)
    (addr : Account) : Except Unit ℚ :=
  match balanceOf addr with
  | .ok b => .ok (toDecimal decimals b)
  | .error e => .error e

/-- `asyncio.gather(*tasks)` without `return_exceptions=True`: if any
task raises, the whole gather raises; otherwise it returns the results
in task order. -/
def gather {β : Type} : List (Except Unit β) → Except Unit (List β)
  | [] => .ok []
  | t :: ts =>
    match t with
    | .error e => .error e
    | .ok b =>
      match gather ts with
      | .error e => .error e
      | .ok bs => .ok (b :: bs)

/-- `get_balance_batch`: one `get_balance` task per address, joined by
`asyncio.gather`. -/
def get_balance_batch (balanceOf : Account → Except Unit Int)
    (decimals : Nat) (addresses : List Account) : Except Unit (List ℚ) :=
  gather (addresses.map (get_balance balanceOf decimals))

/-! ### Level C: get_top_holders (balance aggregation + ranking) -/

/-- `balances[a] += d` on a `defaultdict(int)`: update in place if the
key is present, else insert at the end (insertion order). -/
def ledgerAdd : Ledger → Account → Int → Ledger
  | [], a, d => [(a, d)]
  | (b, v) :: rest, a, d =>
    if b = a then (b, v + d) :: rest else (b, v) :: ledgerAdd rest a d

/-- One side of the fold body in `get_top_holders`:
`if addr and addr != ZERO: balances[addr] += d`.  Python truthiness
makes `None` and the empty string falsy. -/
def dictUpdateIfReal (l : Ledger) (x : Option Account) (d : Int) : Ledger :=
  match x with
  | some f => if f ≠ "" ∧ f ≠ zeroAddress then ledgerAdd l f d else l
  | none => l

/-- One iteration of the event fold in `get_top_holders`: subtract
`value` on the `from` side, then add it on the `to` side, each guarded
as in the source. -/
def applyEvent (l : Ledger) (e : TransferEvent) : Ledger :=
  dictUpdateIfReal (dictUpdateIfReal l e.fromAddr (-(e.value : Int)))
    e.toAddr (e.value : Int)

/-- The whole balance-aggregation loop of `get_top_holders`. -/
def buildLedger (events : List TransferEvent) : Ledger :=
  events.foldl applyEvent []

/-- Read a balance out of the ledger (a missing key reads as `0`,
matching `defaultdict(int)`). -/
def ledgerGet (l : Ledger) (a : Account) : Int :=
  (((l.find? fun p => p.1 == a).map Prod.snd).getD 0)

/-- Spec-side description of one event's net effect on one account:
subtract `value` on the sender side and add it on the receiver side,
each unless that endpoint is absent, empty, or the zero address. -/
def eventDelta (e : TransferEvent) (a : Account) : Int :=
  (if e.fromAddr = some a ∧ a ≠ "" ∧ a ≠ zeroAddress then -(e.value : Int) else 0)
  + (if e.toAddr = some a ∧ a ≠ "" ∧ a ≠ zeroAddress then (e.value : Int) else 0)

/-- Step 3 of `get_top_holders`: keep strictly positive balances and
convert to display units, preserving ledger (insertion) order. -/
def nonZeroDisplay (decimals : Nat) (l : Ledger) : List (Account × ℚ) :=
  (l.filter fun p => decide (0 < p.2)).map fun p => (p.1, toDecimal decimals p.2)

/-- The comparison used by `sorted(non_zero, key=lambda x: x[1],
reverse=True)`: descending in the display balance. -/
def rdesc (x y : Account × ℚ) : Prop := y.2 ≤ x.2

instance : DecidableRel rdesc := fun x y => inferInstanceAs (Decidable (y.2 ≤ x.2))

instance : IsTotal (Account × ℚ) rdesc := ⟨fun a b => le_total b.2 a.2⟩

instance : IsTrans (Account × ℚ) rdesc := ⟨fun _ _ _ h1 h2 => le_trans h2 h1⟩

/-- Steps 3–4 of `get_top_holders` on a given ledger: filter/convert,
stable sort descending by display balance (Python's `sorted` is
stable), truncate to `n`. -/
def rankLedger (decimals : Nat) (n : Int) (l : Ledger) : List (Account × ℚ) :=
  (List.insertionSort rdesc (nonZeroDisplay decimals l)).take n.toNat

/-- `get_top_holders` without the network fetch: `n <= 0` and the
no-events case return `[]` early; otherwise aggregate and rank. -/
def get_top_holders (decimals : Nat) (n : Int)
    (events : List TransferEvent) : List (Account × ℚ) :=
  if n ≤ 0 then []
  else if events.isEmpty then []
  else rankLedger decimals n (buildLedger events)

/-! ### Level D: _get_last_transaction_date / get_top_with_transactions -/

/-- The only field of a raw log entry that `_get_last_transaction_date`
inspects. -/
structure LogEntry where
  blockNumber : Nat
deriving DecidableEq

/-- Python's `max(a, b, key=lambda x: x['blockNumber'])`: returns the
second argument only when its key is strictly greater. -/
def pyMaxByBlock (a b : LogEntry) : LogEntry :=
  if b.blockNumber > a.blockNumber then b else a

/-- Civil date (proleptic Gregorian) from a day count relative to
1970-01-01, as performed inside `datetime`. -/
def civilFromDays (z0 : Int) : Int × Nat × Nat :=
  let z : Int := z0 + 719468
  let era : Int := z.fdiv 146097
  let doe : Nat := (z - era * 146097).toNat
  let yoe : Nat := (doe - doe / 1460 + doe / 36524 - doe / 146096) / 365
  let y : Int := (yoe : Int) + era * 400
  let doy : Nat := doe - (365 * yoe + yoe / 4 - yoe / 100)
  let mp : Nat := (5 * doy + 2) / 153
  let d : Nat := doy - (153 * mp + 2) / 5 + 1
  let m : Nat := if mp < 10 then mp + 3 else mp - 9
  (if m ≤ 2 then y + 1 else y, m, d)

/-- Two-digit zero padding as in `strftime`. -/
def pad2 (n : Nat) : String :=
  if n < 10 then "0" ++ toString n else toString n

/-- `datetime.strftime("%Y-%m-%d %H:%M:%S")` applied to the civil time
of an epoch-seconds value. -/
def formatTimestamp (ts : Int) : String :=
  let days : Int := ts.fdiv 86400
  let sod : Nat := (ts - days * 86400).toNat
  let c := civilFromDays days
  toString c.1 ++ "-" ++ pad2 c.2.1 ++ "-" ++ pad2 c.2.2 ++ " " ++
    pad2 (sod / 3600) ++ ":" ++ pad2 (sod % 3600 / 60) ++ ":" ++ pad2 (sod % 60)

/-- `_get_last_transaction_date`.  The two `eth_get_logs` calls (latest
incoming / latest outgoing match, per the collaborator contract) and
`eth.get_block(...)['timestamp']` are oracle-supplied.  Any raised
error is caught by the surrounding `try` and becomes `"Error"`.
`datetime.fromtimestamp` renders the epoch value in the host's local
time, i.e. at `tzOffset` seconds from UTC. -/
def getLastTransactionDate (tzOffset : Int)
    (incoming outgoing : Except Unit (List LogEntry))
    (getBlockTimestamp : Nat → Except Unit Int) : String :=
  match incoming with
  | .error _ => "Error"
  | .ok inc =>
    match outgoing with
    | .error _ => "Error"
    | .ok out =>
      let lastTx : Option LogEntry :=
        match inc, out with
        | i :: _, o :: _ => some (pyMaxByBlock i o)
        | i :: _, [] => some i
        | [], o :: _ => some o
        | [], [] => none
      match lastTx with
      | some tx =>
        match getBlockTimestamp tx.blockNumber with
        | .ok ts => formatTimestamp (ts + tzOffset)
        | .error _ => "Error"
      | none => "No transactions"

/-- `get_top_with_transactions` after the top holders are known: resolve
the last-transaction date of each ranked account in turn (each
resolution returns a plain string, never raises). -/
def get_top_with_transactions (resolve : Account → String)
    (holders : List (Account × ℚ)) : List (Account × ℚ × String) :=
  holders.map fun p => (p.1, p.2, resolve p.1)

/-! ### _get_all_transfer_events (chunked fetch with retries) -/

/-- Outcome of one `asyncio.wait_for(eth.get_logs(...), timeout=30)`
attempt: a timeout, another exception, or a list of logs (modelled
already decoded, as `get_event_data` is the external decoder). -/
inductive FetchOutcome where
  | timeout
  | failure
  | success (logs : List TransferEvent)

/-- Result of the inner retry loop, with the observable trace of issued
range queries and backoff sleeps. -/
structure InnerRes where
  result : Option (List TransferEvent)
  cnt : Nat
  queries : List (Nat × Nat)
  sleeps : List Nat

/-- The inner `while retries < max_retries` loop for one chunk
`[fromB, toB]`.  `remaining = max_retries - retries` counts the loop
checks left, `cnt` numbers the oracle calls globally.  On success the
logs are returned; on timeout the code sleeps `2 ** retries` after
incrementing `retries`; on any other exception it breaks out at once
(setting `retries = max_retries`). -/
def innerLoop (oracle : Nat → FetchOutcome) (fromB toB : Nat) :
    Nat → Nat → Nat → InnerRes
  | 0, _, cnt => ⟨none, cnt, [], []⟩
  | remaining + 1, retries, cnt =>
    match oracle cnt with
    | .success logs => ⟨some logs, cnt + 1, [(fromB, toB)], []⟩
    | .failure => ⟨none, cnt + 1, [(fromB, toB)], []⟩
    | .timeout =>
      let r := innerLoop oracle fromB toB remaining (retries + 1) (cnt + 1)
      ⟨r.result, r.cnt, (fromB, toB) :: r.queries, 2 ^ (retries + 1) :: r.sleeps⟩

/-- Observable trace of a `_get_all_transfer_events` run: accumulated
events, every `(fromBlock, toBlock)` range query issued, every backoff
sleep, and whether the `while from_block <= current_block` loop
actually terminated within the given fuel. -/
structure FetchTrace where
  events : List TransferEvent
  queries : List (Nat × Nat)
  sleeps : List Nat
  completed : Bool
deriving DecidableEq

/-- The outer `while from_block <= current_block` loop of
`_get_all_transfer_events`, fuel-bounded.  Only the success branch sets
`from_block = to_block + 1`; after an abandoned chunk (exhausted
timeouts or a non-timeout failure) `from_block` is left unchanged, as
in the source. -/
def fetchLoop (oracle : Nat → FetchOutcome) (currentBlock chunkSize maxRetries : Nat) :
    Nat → Nat → Nat → List TransferEvent → FetchTrace
  | 0, fromB, _, acc => ⟨acc, [], [], decide (currentBlock < fromB)⟩
  | fuel + 1, fromB, cnt, acc =>
    if fromB ≤ currentBlock then
      let toB := min (fromB + chunkSize - 1) currentBlock
      let r := innerLoop oracle fromB toB maxRetries 0 cnt
      match r.result with
      | some logs =>
        let t := fetchLoop oracle currentBlock chunkSize maxRetries fuel (toB + 1) r.cnt (acc ++ logs)
        ⟨t.events, r.queries ++ t.queries, r.sleeps ++ t.sleeps, t.completed⟩
      | none =>
        let t := fetchLoop oracle currentBlock chunkSize maxRetries fuel fromB r.cnt acc
        ⟨t.events, r.queries ++ t.queries, r.sleeps ++ t.sleeps, t.completed⟩
    else ⟨acc, [], [], true⟩

/-- The intended chunk partition of `[fromB, H]` into ranges of
`C` blocks (last chunk truncated to `H`), used to state what the fetch
loop queries when every attempt succeeds. -/
def chunkRanges (C H fromB : Nat) : List (Nat × Nat) :=
  if h : fromB ≤ H ∧ 1 ≤ C then
    (fromB, min (fromB + C - 1) H) :: chunkRanges C H (min (fromB + C - 1) H + 1)
  else []
termination_by H + 1 - fromB
decreasing_by
  have h1 : fromB ≤ min (fromB + C - 1) H := le_min (by omega) h.1
  have h2 : min (fromB + C - 1) H ≤ H := min_le_right _ _
  omega

/-! ### Concrete inputs used in witnesses and counterexamples -/

/-- A balance oracle where `0xY` succeeds and every other account's
query raises. -/
def bofXY : Account → Except Unit Int :=
  fun a => if a = "0xY" then .ok 5 else .error ()

/-- A constant successful balance per account. -/
def g0 : Account → Int := fun _ => 7

/-- A balance oracle where every query succeeds with `g0`. -/
def bofOk : Account → Except Unit Int := fun a => .ok (g0 a)

/-- A mint event: 5 units from the zero address to `0xa`. -/
def evMint : TransferEvent := ⟨some zeroAddress, some "0xa", 5, 1⟩

/-- A plain transfer: 2 units from `0xa` to `0xb`. -/
def evMove : TransferEvent := ⟨some "0xa", some "0xb", 2, 2⟩

/-- A ledger with a balance tie whose insertion order disagrees with
ascending account order. -/
def tieLedger : Ledger := [("0xb", 10), ("0xa", 10)]

/-- Incoming-log oracle: the query for `0xA` raises, others are empty. -/
def incQ0 : Account → Except Unit (List LogEntry) :=
  fun a => if a = "0xA" then .error () else .ok []

/-- Outgoing-log oracle: always empty. -/
def outQ0 : Account → Except Unit (List LogEntry) := fun _ => .ok []

/-- Block-timestamp oracle: every block stamps at epoch 0. -/
def gbt0 : Account → Nat → Except Unit Int := fun _ _ => .ok 0

/-- Two ranked holders used in the isolation witness. -/
def holders0 : List (Account × ℚ) := [("0xA", 1), ("0xB", 2)]

/-! ## Theorems -/

/-! ### C1 / C10: batch balance lookup -/

/-- Claim C1 is false as stated: in `get_balance_batch` the tasks are
joined by `asyncio.gather` without `return_exceptions=True`, so one
failing account makes the whole batch call fail as a unit, even though
the other account's individual query succeeds.  Here `0xX` fails and
`0xY` succeeds, yet the batch returns a total failure carrying no
balances. -/
theorem claimC1_cex :
    get_balance_batch bofXY 0 ["0xX", "0xY"] = Except.error () ∧
    get_balance bofXY 0 "0xY" = Except.ok ((5 : ℚ)) := by
  constructor
  · rfl
  · simp [get_balance, bofXY, toDecimal]

/-- Claim C1 (amended): if the balance query of any account in the
batch fails, the whole batch call fails as a unit — the exception
propagates through `asyncio.gather` and the caller receives no
balances and no per-account failure indicator. -/
theorem claimC1 (f : Account → Except Unit Int) (dec : Nat) (xs : List Account)
    (a : Account) (ha : a ∈ xs) (hf : f a = Except.error ()) :
    get_balance_batch f dec xs = Except.error () := by
  induction xs with
  | nil => cases ha
  | cons x rest ih =>
    show gather (get_balance f dec x :: rest.map (get_balance f dec)) = Except.error ()
    rcases List.mem_cons.mp ha with h | h
    · subst h
      simp [gather, get_balance, hf]
    · have hr : gather (rest.map (get_balance f dec)) = Except.error () := ih h
      rcases hx : f x with ⟨⟨⟩⟩ | b
      · simp [gather, get_balance, hx]
      · simp [gather, get_balance, hx, hr]

/-- Witness for the amended C1 at a concrete failing batch. -/
theorem claimC1_witness :
    get_balance_batch (fun _ => Except.error ()) 0 ["0xZ"] = Except.error () :=
  claimC1 (fun _ => Except.error ()) 0 ["0xZ"] "0xZ" (by simp) rfl

/-- Claim C10: when every individual balance lookup succeeds, the batch
returns precisely the input addresses' display balances in input
order — same length, i-th output for i-th input. -/
theorem claimC10 (f : Account → Except Unit Int) (g : Account → Int) (dec : Nat)
    (xs : List Account) (h : ∀ a ∈ xs, f a = Except.ok (g a)) :
    get_balance_batch f dec xs = Except.ok (xs.map fun a => toDecimal dec (g a)) ∧
    (xs.map fun a => toDecimal dec (g a)).length = xs.length ∧
    ∀ i : Nat, (xs.map fun a => toDecimal dec (g a))[i]? =
      (xs[i]?.map fun a => toDecimal dec (g a)) := by
  refine ⟨?_, by simp, by simp⟩
  induction xs with
  | nil => rfl
  | cons x rest ih =>
    show gather (get_balance f dec x :: rest.map (get_balance f dec)) = _
    have hx := h x (List.mem_cons_self x rest)
    have hr := ih fun a ha => h a (List.mem_cons_of_mem _ ha)
    simp only [get_balance_batch] at hr
    simp [gather, get_balance, hx, hr]

/-- Witness for C10 on a two-address batch that fully succeeds. -/
theorem claimC10_witness :
    get_balance_batch bofOk 0 ["0xA", "0xB"] =
      Except.ok (["0xA", "0xB"].map fun a => toDecimal 0 (g0 a)) ∧
    (["0xA", "0xB"].map fun a => toDecimal 0 (g0 a)).length =
      (["0xA", "0xB"] : List Account).length ∧
    ∀ i : Nat, (["0xA", "0xB"].map fun a => toDecimal 0 (g0 a))[i]? =
      ((["0xA", "0xB"] : List Account)[i]?.map fun a => toDecimal 0 (g0 a)) :=
  claimC10 bofOk g0 0 ["0xA", "0xB"] fun _ _ => rfl

/-! ### C2 / C3: chunk abandonment and the retry limit -/

/-- Claim C2 is contradicted by the code: after a non-timeout failure
the inner loop breaks with the comment "skip this chunk", but
`from_block` is never advanced, so the outer loop issues the very same
range query for the chunk `[0, 0]` again and again (here: five fuel
steps, five identical queries), the scan never completes, and no gap
is recorded anywhere in the trace. -/
theorem claimC2 :
    fetchLoop (fun _ => FetchOutcome.failure) 0 1000000 3 5 0 0 [] =
      ⟨[], List.replicate 5 (0, 0), [], false⟩ := by
  decide

/-- Claim C3 is contradicted by the code: when every attempt times out,
the three-attempt budget of the inner loop is spent (with backoff
sleeps 2, 4, 8), but since `from_block` is not advanced the outer loop
re-enters the same chunk with the retry counter reset — within two
outer passes the fetcher has already issued 6 attempts for the single
chunk `[0, 0]`, exceeding the claimed 3-attempt cap, and it never
terminates. -/
theorem claimC3 :
    fetchLoop (fun _ => FetchOutcome.timeout) 0 1000000 3 2 0 0 [] =
      ⟨[], List.replicate 6 (0, 0), [2, 4, 8, 2, 4, 8], false⟩ := by
  decide

/-! ### C9: chunk partition when every query succeeds -/

theorem chunkRanges_nil (C H f : Nat) (h : H < f ∨ C = 0) : chunkRanges C H f = [] := by
  rw [chunkRanges, dif_neg]
  omega

theorem chunkRanges_cons (C H f : Nat) (hf : f ≤ H) (hC : 1 ≤ C) :
    chunkRanges C H f =
      (f, min (f + C - 1) H) :: chunkRanges C H (min (f + C - 1) H + 1) := by
  rw [chunkRanges, dif_pos ⟨hf, hC⟩]

theorem chunkRanges_length (C H : Nat) (hC : 1 ≤ C) :
    ∀ f, f ≤ H → (chunkRanges C H f).length = (H - f) / C + 1 := by
  have key : ∀ k f, H + 1 - f ≤ k → f ≤ H →
      (chunkRanges C H f).length = (H - f) / C + 1 := by
    intro k
    induction k with
    | zero => intro f hk hf; omega
    | succ k ih =>
      intro f hk hf
      rw [chunkRanges_cons C H f hf hC]
      by_cases hm : f + C - 1 < H
      · have hmin : min (f + C - 1) H = f + C - 1 := min_eq_left (by omega)
        have h1 : f + C - 1 + 1 = f + C := by omega
        rw [hmin, h1, List.length_cons, ih (f + C) (by omega) (by omega)]
        have h2 : H - f = (H - (f + C)) + C := by omega
        rw [h2, Nat.add_div_right _ hC]
      · have hmin : min (f + C - 1) H = H := min_eq_right (by omega)
        rw [hmin, chunkRanges_nil C H (H + 1) (by omega)]
        have h0 : (H - f) / C = 0 := Nat.div_eq_of_lt (by omega)
        simp [h0]
  intro f hf
  exact key (H + 1 - f) f le_rfl hf

theorem chunkRanges_cover (C H : Nat) (hC : 1 ≤ C) :
    ∀ f, ((chunkRanges C H f).flatMap fun q => List.range' q.1 (q.2 + 1 - q.1)) =
      List.range' f (H + 1 - f) := by
  have key : ∀ k f, H + 1 - f ≤ k →
      ((chunkRanges C H f).flatMap fun q => List.range' q.1 (q.2 + 1 - q.1)) =
        List.range' f (H + 1 - f) := by
    intro k
    induction k with
    | zero =>
      intro f hk
      rw [chunkRanges_nil C H f (by omega)]
      have h0 : H + 1 - f = 0 := by omega
      simp [h0]
    | succ k ih =>
      intro f hk
      by_cases hf : f ≤ H
      · rw [chunkRanges_cons C H f hf hC]
        have hm1 : f ≤ min (f + C - 1) H := le_min (by omega) hf
        have hm2 : min (f + C - 1) H ≤ H := min_le_right _ _
        rw [List.flatMap_cons, ih (min (f + C - 1) H + 1) (by omega)]
        have e2 : f + (min (f + C - 1) H + 1 - f) = min (f + C - 1) H + 1 := by omega
        have e3 : (H + 1 - (min (f + C - 1) H + 1)) + (min (f + C - 1) H + 1 - f) =
            H + 1 - f := by omega
        calc List.range' f (min (f + C - 1) H + 1 - f) ++
              List.range' (min (f + C - 1) H + 1) (H + 1 - (min (f + C - 1) H + 1))
            = List.range' f (min (f + C - 1) H + 1 - f) ++
              List.range' (f + (min (f + C - 1) H + 1 - f))
                (H + 1 - (min (f + C - 1) H + 1)) := by rw [e2]
          _ = List.range' f (H + 1 - f) := by rw [List.range'_append_1, e3]
      · rw [chunkRanges_nil C H f (by omega)]
        have h0 : H + 1 - f = 0 := by omega
        simp [h0]
  intro f
  exact key (H + 1 - f) f le_rfl

theorem innerLoop_success (L : Nat → List TransferEvent) (f t r retries cnt : Nat)
    (hr : 1 ≤ r) :
    innerLoop (fun n => FetchOutcome.success (L n)) f t r retries cnt =
      ⟨some (L cnt), cnt + 1, [(f, t)], []⟩ := by
  cases r with
  | zero => omega
  | succ r => rfl

theorem fetchLoop_success (L : Nat → List TransferEvent) (C H : Nat) (hC : 1 ≤ C) :
    ∀ fuel f cnt acc, (chunkRanges C H f).length ≤ fuel →
      (fetchLoop (fun n => FetchOutcome.success (L n)) H C 3 fuel f cnt acc).queries =
          chunkRanges C H f ∧
      (fetchLoop (fun n => FetchOutcome.success (L n)) H C 3 fuel f cnt acc).sleeps = [] ∧
      (fetchLoop (fun n => FetchOutcome.success (L n)) H C 3 fuel f cnt acc).completed = true := by
  intro fuel
  induction fuel with
  | zero =>
    intro f cnt acc hlen
    by_cases hf : f ≤ H
    · rw [chunkRanges_cons C H f hf hC] at hlen
      simp at hlen
    · rw [chunkRanges_nil C H f (by omega)]
      refine ⟨rfl, rfl, ?_⟩
      simp [fetchLoop]
      omega
  | succ fuel ih =>
    intro f cnt acc hlen
    by_cases hf : f ≤ H
    · rw [chunkRanges_cons C H f hf hC] at hlen ⊢
      have hinner := innerLoop_success L f (min (f + C - 1) H) 3 0 cnt (by omega)
      have hrec := ih (min (f + C - 1) H + 1) (cnt + 1) (acc ++ L cnt)
        (by simp at hlen; omega)
      simp only [fetchLoop, if_pos hf, hinner]
      exact ⟨by simp [hrec.1], by simp [hrec.2.1], hrec.2.2⟩
    · rw [chunkRanges_nil C H f (by omega)]
      simp [fetchLoop, hf]

/-- Claim C9: with every range query succeeding, the fetch over
`[0, H]` with chunk size `C` terminates after issuing exactly
`⌈(H+1)/C⌉` range queries whose ranges, concatenated in order, are
precisely the blocks `0..H` — contiguous, non-overlapping, each block
covered exactly once. -/
theorem claimC9 (L : Nat → List TransferEvent) (C H : Nat) (hC : 1 ≤ C) :
    (fetchLoop (fun n => FetchOutcome.success (L n)) H C 3
        ((chunkRanges C H 0).length) 0 0 []).completed = true ∧
    (fetchLoop (fun n => FetchOutcome.success (L n)) H C 3
        ((chunkRanges C H 0).length) 0 0 []).queries.length = (H + 1 + (C - 1)) / C ∧
    ((fetchLoop (fun n => FetchOutcome.success (L n)) H C 3
        ((chunkRanges C H 0).length) 0 0 []).queries.flatMap
      fun q => List.range' q.1 (q.2 + 1 - q.1)) = List.range (H + 1) := by
  obtain ⟨hq, hs, hc⟩ :=
    fetchLoop_success L C H hC ((chunkRanges C H 0).length) 0 0 [] le_rfl
  refine ⟨hc, ?_, ?_⟩
  · rw [hq, chunkRanges_length C H hC 0 (Nat.zero_le H)]
    have h1 : H + 1 + (C - 1) = H + C := by omega
    rw [h1, Nat.add_div_right _ hC]
    simp
  · rw [hq, chunkRanges_cover C H hC 0]
    simp [List.range_eq_range']

/-- Witness for C9: chunk size 3 over blocks `[0, 7]`. -/
theorem claimC9_witness :
    (fetchLoop (fun _ => FetchOutcome.success ([] : List TransferEvent)) 7 3 3
        ((chunkRanges 3 7 0).length) 0 0 []).completed = true ∧
    (fetchLoop (fun _ => FetchOutcome.success ([] : List TransferEvent)) 7 3 3
        ((chunkRanges 3 7 0).length) 0 0 []).queries.length = (7 + 1 + (3 - 1)) / 3 ∧
    ((fetchLoop (fun _ => FetchOutcome.success ([] : List TransferEvent)) 7 3 3
        ((chunkRanges 3 7 0).length) 0 0 []).queries.flatMap
      fun q => List.range' q.1 (q.2 + 1 - q.1)) = List.range (7 + 1) :=
  claimC9 (fun _ => []) 3 7 (by omega)

/-! ### C5 / C8: activity resolver -/

/-- Claim C5 is false on its "in UTC" part: the code formats the block
timestamp with `datetime.fromtimestamp`, which renders the host's
local civil time.  On a host at UTC+1 (offset 3600 s) a block stamped
at epoch 0 is reported as "1970-01-01 01:00:00", while the UTC
rendering required by the claim is "1970-01-01 00:00:00". -/
theorem claimC5_cex :
    getLastTransactionDate 3600 (Except.ok [⟨100⟩]) (Except.ok [])
        (fun _ => Except.ok 0) = "1970-01-01 01:00:00" ∧
    formatTimestamp 0 = "1970-01-01 00:00:00" ∧
    "1970-01-01 01:00:00" ≠ "1970-01-01 00:00:00" :=
  ⟨by decide, by decide, by decide⟩

/-- Claim C5 (amended): with successful queries, the resolver picks
the transfer with the greater block number when both a sender-filtered
and a receiver-filtered match exist (falling back to whichever side
matched), and returns that block's timestamp formatted as
`YYYY-MM-DD HH:MM:SS` in the host's local timezone (UTC exactly when
the host offset is zero). -/
theorem claimC5 (tz : Int) (li lo : LogEntry) (tsf : Nat → Int) :
    getLastTransactionDate tz (Except.ok [li]) (Except.ok [lo])
        (fun b => Except.ok (tsf b)) =
      formatTimestamp (tsf (max li.blockNumber lo.blockNumber) + tz) ∧
    getLastTransactionDate tz (Except.ok [li]) (Except.ok [])
        (fun b => Except.ok (tsf b)) = formatTimestamp (tsf li.blockNumber + tz) ∧
    getLastTransactionDate tz (Except.ok []) (Except.ok [lo])
        (fun b => Except.ok (tsf b)) = formatTimestamp (tsf lo.blockNumber + tz) := by
  refine ⟨?_, rfl, rfl⟩
  by_cases h : lo.blockNumber > li.blockNumber
  · simp [getLastTransactionDate, pyMaxByBlock, h, Nat.max_eq_right (le_of_lt h)]
  · simp [getLastTransactionDate, pyMaxByBlock, h, Nat.max_eq_left (by omega : lo.blockNumber ≤ li.blockNumber)]

/-- Claim C8: the resolver returns the sentinel "No transactions" when
the account appears in no transfer in either direction, the distinct
sentinel "Error" when a query errors out, and
`get_top_with_transactions` resolves every ranked account to a plain
string independently — the output always has one entry per holder,
each determined only by that account's own queries, so a per-account
failure cannot abort the others. -/
theorem claimC8 (tz : Int) (incQ outQ : Account → Except Unit (List LogEntry))
    (gbt : Account → Nat → Except Unit Int) (holders : List (Account × ℚ)) :
    (∀ a, incQ a = Except.ok [] → outQ a = Except.ok [] →
      getLastTransactionDate tz (incQ a) (outQ a) (gbt a) = "No transactions") ∧
    (∀ a, incQ a = Except.error () →
      getLastTransactionDate tz (incQ a) (outQ a) (gbt a) = "Error") ∧
    (∀ a, outQ a = Except.error () →
      getLastTransactionDate tz (incQ a) (outQ a) (gbt a) = "Error") ∧
    ("No transactions" ≠ "Error") ∧
    (get_top_with_transactions
        (fun a => getLastTransactionDate tz (incQ a) (outQ a) (gbt a)) holders).length =
      holders.length ∧
    (∀ i : Nat, (get_top_with_transactions
        (fun a => getLastTransactionDate tz (incQ a) (outQ a) (gbt a)) holders)[i]? =
      (holders[i]?.map fun p =>
        (p.1, p.2, getLastTransactionDate tz (incQ p.1) (outQ p.1) (gbt p.1)))) := by
  refine ⟨?_, ?_, ?_, by decide, by simp [get_top_with_transactions], ?_⟩
  · intro a h1 h2
    rw [h1, h2]
    rfl
  · intro a h
    rw [h]
    rfl
  · intro a h
    rcases hin : incQ a with ⟨⟨⟩⟩ | inc
    · rfl
    · rw [h]
      rfl
  · intro i
    simp [get_top_with_transactions]

/-- Witness for C8: account `0xA`'s query errors while `0xB` resolves
to "No transactions"; both appear in the joined output. -/
theorem claimC8_witness :
    getLastTransactionDate 0 (incQ0 "0xA") (outQ0 "0xA") (gbt0 "0xA") = "Error" ∧
    getLastTransactionDate 0 (incQ0 "0xB") (outQ0 "0xB") (gbt0 "0xB") = "No transactions" ∧
    get_top_with_transactions
        (fun a => getLastTransactionDate 0 (incQ0 a) (outQ0 a) (gbt0 a)) holders0 =
      [("0xA", 1, "Error"), ("0xB", 2, "No transactions")] := by
  obtain ⟨h1, h2, h3, h4, h5, h6⟩ := claimC8 0 incQ0 outQ0 gbt0 holders0
  have e1 : getLastTransactionDate 0 (incQ0 "0xA") (outQ0 "0xA") (gbt0 "0xA") = "Error" :=
    h2 "0xA" (by simp [incQ0])
  have e2 : getLastTransactionDate 0 (incQ0 "0xB") (outQ0 "0xB") (gbt0 "0xB") =
      "No transactions" :=
    h1 "0xB" (by simp [incQ0]) rfl
  exact ⟨e1, e2, by simp [get_top_with_transactions, holders0, e1, e2]⟩


/-! ### C6 / C7: balance aggregation -/

theorem ledgerGet_cons (b : Account) (v : Int) (l : Ledger) (a : Account) :
    ledgerGet ((b, v) :: l) a = if b = a then v else ledgerGet l a := by
  by_cases h : b = a
  · simp [ledgerGet, List.find?, h]
  · have hb : (b == a) = false := by simp [h]
    simp [ledgerGet, List.find?, hb, h]

theorem ledgerGet_ledgerAdd (l : Ledger) (b : Account) (d : Int) (a : Account) :
    ledgerGet (ledgerAdd l b d) a = ledgerGet l a + if b = a then d else 0 := by
  induction l with
  | nil =>
    show ledgerGet [(b, d)] a = ledgerGet [] a + if b = a then d else 0
    by_cases h : b = a <;> simp [ledgerGet_cons, h, ledgerGet]
  | cons p rest ih =>
    obtain ⟨c, v⟩ := p
    by_cases hcb : c = b
    · subst hcb
      by_cases hca : c = a <;> simp [ledgerAdd, ledgerGet_cons, hca]
    · have hstep : ledgerAdd ((c, v) :: rest) b d = (c, v) :: ledgerAdd rest b d := by
        simp [ledgerAdd, hcb]
      rw [hstep]
      by_cases hca : c = a
      · have hba : ¬ b = a := fun hh => hcb (hca.trans hh.symm)
        simp [ledgerGet_cons, hca, hba]
      · simp [ledgerGet_cons, hca, ih]

theorem ledgerGet_dictUpdateIfReal (l : Ledger) (x : Option Account) (d : Int) (a : Account) :
    ledgerGet (dictUpdateIfReal l x d) a =
      ledgerGet l a + if x = some a ∧ a ≠ "" ∧ a ≠ zeroAddress then d else 0 := by
  rcases x with _ | f
  · simp [dictUpdateIfReal]
  · by_cases hf : f ≠ "" ∧ f ≠ zeroAddress
    · rw [dictUpdateIfReal, if_pos hf, ledgerGet_ledgerAdd]
      by_cases hfa : f = a
      · subst hfa
        rw [if_pos rfl, if_pos ⟨rfl, hf⟩]
      · rw [if_neg hfa, if_neg ?_]
        rintro ⟨heq, -, -⟩
        exact hfa (Option.some.inj heq)
    · rw [dictUpdateIfReal, if_neg hf, if_neg ?_]
      · omega
      · rintro ⟨heq, ha1, ha2⟩
        exact hf (by rw [Option.some.inj heq]; exact ⟨ha1, ha2⟩)

theorem ledgerGet_applyEvent (l : Ledger) (e : TransferEvent) (a : Account) :
    ledgerGet (applyEvent l e) a = ledgerGet l a + eventDelta e a := by
  rw [applyEvent, ledgerGet_dictUpdateIfReal, ledgerGet_dictUpdateIfReal, eventDelta]
  ring

theorem ledgerGet_buildLedger (es : List TransferEvent) (a : Account) :
    ledgerGet (buildLedger es) a = (es.map fun e => eventDelta e a).sum := by
  have key : ∀ (es : List TransferEvent) (l : Ledger), ledgerGet (es.foldl applyEvent l) a =
      ledgerGet l a + (es.map fun e => eventDelta e a).sum := by
    intro es
    induction es with
    | nil => intro l; simp
    | cons e rest ih =>
      intro l
      simp only [List.foldl_cons, List.map_cons, List.sum_cons]
      rw [ih, ledgerGet_applyEvent]
      ring
  have h0 : ledgerGet [] a = 0 := rfl
  have hk := key es []
  rw [h0, zero_add] at hk
  exact hk

/-- Claim C6: folding one TransferEvent into the ledger changes each
account by exactly `eventDelta` — subtract `value` on the sender side
and add it on the receiver side, each unless that endpoint is the zero
address (or absent/empty, which Python truthiness also skips).  Hence
a mint (`from` = zero address) changes only the receiver's balance and
a burn (`to` = zero address) changes only the sender's. -/
theorem claimC6 (l : Ledger) (e : TransferEvent) :
    (∀ a, ledgerGet (applyEvent l e) a = ledgerGet l a + eventDelta e a) ∧
    (∀ t, e.fromAddr = some zeroAddress → e.toAddr = some t → t ≠ "" → t ≠ zeroAddress →
      ledgerGet (applyEvent l e) t = ledgerGet l t + e.value ∧
      (∀ b, b ≠ t → ledgerGet (applyEvent l e) b = ledgerGet l b) ∧
      (0 < e.value → ledgerGet (applyEvent l e) t ≠ ledgerGet l t)) ∧
    (∀ f, e.toAddr = some zeroAddress → e.fromAddr = some f → f ≠ "" → f ≠ zeroAddress →
      ledgerGet (applyEvent l e) f = ledgerGet l f - e.value ∧
      (∀ b, b ≠ f → ledgerGet (applyEvent l e) b = ledgerGet l b) ∧
      (0 < e.value → ledgerGet (applyEvent l e) f ≠ ledgerGet l f)) := by
  refine ⟨ledgerGet_applyEvent l e, ?_, ?_⟩
  · intro t h1 h2 h3 h4
    have hdt : eventDelta e t = e.value := by
      rw [eventDelta, h1, h2, if_neg, if_pos ⟨rfl, h3, h4⟩]
      · omega
      · rintro ⟨heq, -, htz⟩
        exact htz (Option.some.inj heq).symm
    refine ⟨?_, ?_, ?_⟩
    · rw [ledgerGet_applyEvent, hdt]
    · intro b hb
      have hdb : eventDelta e b = 0 := by
        rw [eventDelta, h1, h2, if_neg, if_neg]
        · omega
        · rintro ⟨heq, -, -⟩
          exact hb (Option.some.inj heq).symm
        · rintro ⟨heq, -, hbz⟩
          exact hbz (Option.some.inj heq).symm
      rw [ledgerGet_applyEvent, hdb, add_zero]
    · intro hv
      rw [ledgerGet_applyEvent, hdt]
      omega
  · intro f h1 h2 h3 h4
    have hdf : eventDelta e f = -(e.value : Int) := by
      rw [eventDelta, h2, h1, if_pos ⟨rfl, h3, h4⟩, if_neg]
      · omega
      · rintro ⟨heq, -, hfz⟩
        exact hfz (Option.some.inj heq).symm
    refine ⟨?_, ?_, ?_⟩
    · rw [ledgerGet_applyEvent, hdf]
      omega
    · intro b hb
      have hdb : eventDelta e b = 0 := by
        rw [eventDelta, h2, h1, if_neg, if_neg]
        · omega
        · rintro ⟨heq, -, hbz⟩
          exact hbz (Option.some.inj heq).symm
        · rintro ⟨heq, -, -⟩
          exact hb (Option.some.inj heq).symm
      rw [ledgerGet_applyEvent, hdb, add_zero]
    · intro hv
      rw [ledgerGet_applyEvent, hdf]
      omega

/-- Witness for C6: a concrete mint of 5 units to `0xa` on a ledger
holding only `0xb`. -/
theorem claimC6_witness :
    ledgerGet (applyEvent [("0xb", 3)] evMint) "0xa" =
      ledgerGet [("0xb", 3)] "0xa" + evMint.value ∧
    (∀ b, b ≠ "0xa" → ledgerGet (applyEvent [("0xb", 3)] evMint) b =
      ledgerGet [("0xb", 3)] b) ∧
    (0 < evMint.value → ledgerGet (applyEvent [("0xb", 3)] evMint) "0xa" ≠
      ledgerGet [("0xb", 3)] "0xa") :=
  (claimC6 [("0xb", 3)] evMint).2.1 "0xa" rfl rfl (by decide) (by decide)

/-- Claim C7: aggregation is permutation-invariant — any reordering of
the event sequence produces a ledger with identical balances for every
account — and, being a pure fold, the same sequence always yields the
identical ledger. -/
theorem claimC7 (es1 es2 : List TransferEvent) (hp : es1.Perm es2) :
    (∀ a, ledgerGet (buildLedger es1) a = ledgerGet (buildLedger es2) a) ∧
    buildLedger es1 = buildLedger es1 := by
  refine ⟨fun a => ?_, rfl⟩
  rw [ledgerGet_buildLedger, ledgerGet_buildLedger]
  exact (hp.map fun e => eventDelta e a).sum_eq

/-- Witness for C7 on a two-event history and its transposition. -/
theorem claimC7_witness :
    (∀ a, ledgerGet (buildLedger [evMint, evMove]) a =
      ledgerGet (buildLedger [evMove, evMint]) a) ∧
    buildLedger [evMint, evMove] = buildLedger [evMint, evMove] :=
  claimC7 [evMint, evMove] [evMove, evMint] (by decide)

/-! ### C4: the ranking -/

theorem filter_orderedInsert_key (q : ℚ) (b : Account × ℚ) (s : List (Account × ℚ)) :
    (List.orderedInsert rdesc b s).filter (fun p => decide (p.2 = q)) =
      if b.2 = q then b :: s.filter (fun p => decide (p.2 = q))
      else s.filter (fun p => decide (p.2 = q)) := by
  induction s with
  | nil =>
    by_cases hbq : b.2 = q <;> simp [List.orderedInsert, List.filter, hbq]
  | cons c cs ih =>
    by_cases hr : rdesc b c
    · rw [List.orderedInsert, if_pos hr]
      by_cases hbq : b.2 = q <;> simp [List.filter_cons, hbq]
    · have hlt : b.2 < c.2 := lt_of_not_le hr
      rw [List.orderedInsert, if_neg hr]
      by_cases hcq : c.2 = q
      · have hbq : ¬ b.2 = q := fun hb => absurd (hcq.trans hb.symm ▸ le_refl c.2) (by
          rw [hb, ← hcq] at hlt ⊢
          exact not_le_of_lt hlt)
        simp [List.filter_cons, hcq, hbq, ih]
      · by_cases hbq : b.2 = q <;> simp [List.filter_cons, hcq, hbq, ih]

theorem filter_insertionSort_key (q : ℚ) (l : List (Account × ℚ)) :
    (List.insertionSort rdesc l).filter (fun p => decide (p.2 = q)) =
      l.filter (fun p => decide (p.2 = q)) := by
  induction l with
  | nil => rfl
  | cons b t ih =>
    rw [List.insertionSort, filter_orderedInsert_key]
    by_cases hbq : b.2 = q <;> simp [List.filter_cons, hbq, ih]

theorem isPre_filter_take (p : (Account × ℚ) → Bool) (n : Nat)
    (l : List (Account × ℚ)) : (l.take n).filter p <+: l.filter p :=
  ⟨(l.drop n).filter p, by rw [← List.filter_append, List.take_append_drop]⟩

/-- Claim C4 (amended): for every ledger and every N the ranking has
at most N entries, each with display balance strictly greater than
zero, sorted descending by display balance; entries with equal
balances keep the ledger's insertion order (Python's `sorted` is
stable) rather than ascending account order — stated here as: the
ranking's entries of any fixed balance form a prefix of the filtered
ledger in its original order.  Determinism for a fixed ledger is
definitional, the ranking being a pure function. -/
theorem claimC4 (decimals : Nat) (n : Int) (ledger : Ledger) :
    (rankLedger decimals n ledger).length ≤ n.toNat ∧
    (∀ p ∈ rankLedger decimals n ledger, 0 < p.2) ∧
    List.Sorted rdesc (rankLedger decimals n ledger) ∧
    ∀ q : ℚ, (rankLedger decimals n ledger).filter (fun p => decide (p.2 = q)) <+:
      (nonZeroDisplay decimals ledger).filter (fun p => decide (p.2 = q)) := by
  refine ⟨?_, ?_, ?_, ?_⟩
  · exact List.length_take_le _ _
  · intro p hp
    have hp1 : p ∈ List.insertionSort rdesc (nonZeroDisplay decimals ledger) :=
      (List.take_sublist _ _).subset hp
    have hp2 : p ∈ nonZeroDisplay decimals ledger :=
      (List.perm_insertionSort rdesc _).subset hp1
    simp only [nonZeroDisplay, List.mem_map, List.mem_filter] at hp2
    obtain ⟨x, ⟨hmem, hpos⟩, hpx⟩ := hp2
    have hxpos : (0 : Int) < x.2 := by simpa using hpos
    rw [← hpx]
    show 0 < toDecimal decimals x.2
    rw [toDecimal]
    apply div_pos
    · exact_mod_cast hxpos
    · positivity
  · exact (List.sorted_insertionSort rdesc _).sublist (List.take_sublist _ _)
  · intro q
    have h1 := isPre_filter_take (fun p => decide (p.2 = q)) n.toNat
      (List.insertionSort rdesc (nonZeroDisplay decimals ledger))
    rw [filter_insertionSort_key] at h1
    exact h1

/-- Claim C4 is false on its tie-break part: for the ledger
`[("0xb", 10), ("0xa", 10)]` both display balances are equal, yet the
ranking lists `0xb` before `0xa` even though `"0xa" < "0xb"` — the
stable sort keeps dict insertion order, it does not order ties by
account ascending. -/
theorem claimC4_cex :
    rankLedger 0 2 tieLedger = [("0xb", (10 : ℚ)), ("0xa", (10 : ℚ))] ∧
    ("0xa" : String) < "0xb" := by
  constructor
  · simp [rankLedger, tieLedger, nonZeroDisplay, toDecimal, List.insertionSort,
      List.orderedInsert, rdesc]
  · exact String.lt_iff_toList_lt.mpr (by decide)

/-- Witness for the amended C4 at the concrete tie ledger. -/
theorem claimC4_witness :
    (rankLedger 0 2 tieLedger).length ≤ (2 : Int).toNat ∧
    (∀ p ∈ rankLedger 0 2 tieLedger, 0 < p.2) ∧
    List.Sorted rdesc (rankLedger 0 2 tieLedger) ∧
    ∀ q : ℚ, (rankLedger 0 2 tieLedger).filter (fun p => decide (p.2 = q)) <+:
      (nonZeroDisplay 0 tieLedger).filter (fun p => decide (p.2 = q)) :=
  claimC4 0 2 tieLedger
